import Mathlib

/-!
Verification of the segment-planning and transform pipeline of the
auto video editor (`app.py`).

The development shallowly embeds the worker `VideoProcessor.run`
(lines 25-83), the random crop geometry `zoom_on_random_spot`
(lines 85-108) and the cooperative cancellation flag set by `stop`
(lines 110-111).  Durations and frame rates are modelled as rationals
(`ℚ`), frame counts as integers (`ℤ`); Python's `int(...)` truncation
toward zero is `pyInt` and `random.randint` is `randint` driven by an
explicit source of natural numbers.
-/

/-- Python's `int(q)` conversion of a real quantity: truncation toward
zero (floor for nonnegative arguments, ceiling for negative ones). -/
def pyInt (q : ℚ) : ℤ := if 0 ≤ q then ⌊q⌋ else ⌈q⌉

/-- Python's `random.randint(lo, hi)` (both bounds inclusive), driven by
one draw `g` from an explicit random source.  For `lo ≤ hi` every value
of `g` lands in `[lo, hi]`. -/
def randint (lo hi : ℤ) (g : ℕ) : ℤ := lo + (g : ℤ) % (hi - lo + 1)

/-- Kinds of segments emitted by the planning loop of
`VideoProcessor.run`: a normal playback window, a zoomed window, or a
skipped (discarded) window. -/
inductive SegmentKind
  | play
  | zoom
  | skip
deriving DecidableEq

/-- One entry of the segment plan: its kind, its time span
`[startS, endS]` in seconds on the main clip's timeline, and the zoom
percentage for zoom entries (`none` otherwise). -/
structure SegmentPlanEntry where
  kind : SegmentKind
  startS : ℚ
  endS : ℚ
  zp : Option ℤ
deriving DecidableEq

/-- The planning loop of `VideoProcessor.run` (lines 37-63), generalized
over the ruleset `(p, z, s)` = (playSeconds, zoomSeconds, skipSeconds)
and the zoom percentage `zl`; the source hard-codes `p = 45`, `z = 5`,
`s = 10`, `zl = 50`.  Starting at time `t` it emits
`Play(t, min (t+p) D)`, breaks if the clip end `D` is reached, emits
`Zoom(·, min (·+z) D)`, breaks if `D` is reached, then consumes a skip
window (span clamped to `D`, but the clock advances by exactly `s`, as
in `current_time += 10`) and repeats.  `fuel` bounds the number of
iterations; `planFuel` below always provides enough. -/
def planLoop (p z s : ℚ) (zl : ℤ) (D : ℚ) : ℕ → ℚ → List SegmentPlanEntry
  | 0, _ => []
  | fuel + 1, t =>
    if t < D then
      if D ≤ min (t + p) D then [⟨.play, t, min (t + p) D, none⟩]
      else
        if D ≤ min (min (t + p) D + z) D then
          [⟨.play, t, min (t + p) D, none⟩,
           ⟨.zoom, min (t + p) D, min (min (t + p) D + z) D, some zl⟩]
        else
          ⟨.play, t, min (t + p) D, none⟩ ::
          ⟨.zoom, min (t + p) D, min (min (t + p) D + z) D, some zl⟩ ::
          ⟨.skip, min (min (t + p) D + z) D,
            min (min (min (t + p) D + z) D + s) D, none⟩ ::
          planLoop p z s zl D fuel (min (min (t + p) D + z) D + s)
    else []

/-- Iteration budget for the planning loop: each full iteration advances
the clock by exactly `c` seconds (`c` = playSeconds + zoomSeconds +
skipSeconds), so `⌊D/c⌋ + 2` iterations always suffice. -/
def planFuel (c D : ℚ) : ℕ := (⌊D / c⌋).toNat + 2

/-- The full segment plan for a source of duration `D` under ruleset
`(p, z, s)` with zoom percentage `zl`. -/
def plan (p z s : ℚ) (zl : ℤ) (D : ℚ) : List SegmentPlanEntry :=
  planLoop p z s zl D (planFuel (p + z + s) D) 0

lemma le_mul_planFuel {c : ℚ} (hc : 0 < c) (D : ℚ) :
    D ≤ c * planFuel c D := by
  have h1 : D / c < ⌊D / c⌋ + 1 := Int.lt_floor_add_one _
  have h2 : ((⌊D / c⌋ : ℤ) : ℚ) ≤ ((⌊D / c⌋.toNat : ℕ) : ℚ) := by
    exact_mod_cast Int.self_le_toNat _
  have h3 : D / c ≤ (planFuel c D : ℚ) := by
    unfold planFuel
    push_cast
    linarith
  calc D = c * (D / c) := by field_simp
    _ ≤ c * planFuel c D := mul_le_mul_of_nonneg_left h3 (le_of_lt hc)

lemma planLoop_sound (p z s : ℚ) (zl : ℤ) (D : ℚ)
    (hp : 0 < p) (hz : 0 < z) (hs : 0 < s) :
    ∀ fuel : ℕ, ∀ t : ℚ, D ≤ t + (p + z + s) * fuel →
      (∀ e ∈ planLoop p z s zl D fuel t,
          t ≤ e.startS ∧ e.startS < e.endS ∧ e.endS ≤ D) ∧
      (planLoop p z s zl D fuel t).Chain' (fun a b => a.endS ≤ b.startS) ∧
      (planLoop p z s zl D fuel t = [] ↔ D ≤ t) ∧
      (∀ e, (planLoop p z s zl D fuel t).getLast? = some e → e.endS = D) := by
  intro fuel
  induction fuel with
  | zero =>
    intro t ht
    push_cast at ht
    simp only [planLoop]
    have hDt : D ≤ t := by linarith
    exact ⟨by simp, by simp, by simp [hDt], by simp⟩
  | succ n ih =>
    intro t ht
    by_cases h1 : t < D
    · have hE1le : min (t + p) D ≤ D := min_le_right _ _
      have hE1gt : t < min (t + p) D := lt_min (by linarith) h1
      by_cases h2 : D ≤ min (t + p) D
      · have hE1 : min (t + p) D = D := le_antisymm hE1le h2
        simp only [planLoop, if_pos h1, if_pos h2]
        refine ⟨?_, by simp, ?_, ?_⟩
        · intro e he
          simp only [List.mem_singleton] at he
          subst he
          exact ⟨le_refl _, hE1gt, hE1le⟩
        · constructor
          · intro hcon
            exact absurd hcon (by simp)
          · intro hle
            exact absurd hle (not_le.mpr h1)
        · intro e he
          simp only [List.getLast?_singleton, Option.some.injEq] at he
          subst he
          exact hE1
      · have hlt : t + p < D := by
          by_contra hge
          push_neg at hge
          exact h2 (le_min hge le_rfl)
        have hE1eq : min (t + p) D = t + p := min_eq_left (le_of_lt hlt)
        by_cases h3 : D ≤ min (t + p + z) D
        · have hE2le : min (t + p + z) D ≤ D := min_le_right _ _
          have hE2 : min (t + p + z) D = D := le_antisymm hE2le h3
          simp only [planLoop, hE1eq, if_pos h1, if_neg (not_le.mpr hlt),
            if_pos h3]
          refine ⟨?_, ?_, ?_, ?_⟩
          · intro e he
            simp only [List.mem_cons, List.mem_singleton,
              List.not_mem_nil, or_false] at he
            rcases he with rfl | rfl
            · exact ⟨le_refl t, show t < t + p by linarith, le_of_lt hlt⟩
            · exact ⟨show t ≤ t + p by linarith,
                lt_min (show t + p < t + p + z by linarith) hlt, hE2le⟩
          · refine List.chain'_cons.mpr ⟨le_refl _, List.chain'_singleton _⟩
          · constructor
            · intro hcon
              exact absurd hcon (by simp)
            · intro hle
              exact absurd hle (not_le.mpr h1)
          · intro e he
            simp only [List.getLast?_cons_cons, List.getLast?_singleton,
              Option.some.injEq] at he
            subst he
            exact hE2
        · have hlt2 : t + p + z < D := by
            by_contra hge
            push_neg at hge
            exact h3 (le_min hge le_rfl)
          have hE2eq : min (t + p + z) D = t + p + z :=
            min_eq_left (le_of_lt hlt2)
          have ht' : D ≤ (t + p + z + s) + (p + z + s) * n := by
            push_cast at ht
            linarith
          obtain ⟨ihA, ihB, ihC, ihL⟩ := ih (t + p + z + s) ht'
          simp only [planLoop, hE1eq, if_pos h1, if_neg (not_le.mpr hlt),
            hE2eq, if_neg (not_le.mpr hlt2)]
          refine ⟨?_, ?_, ?_, ?_⟩
          · intro e he
            simp only [List.mem_cons] at he
            rcases he with rfl | rfl | rfl | he
            · exact ⟨le_refl t, show t < t + p by linarith, le_of_lt hlt⟩
            · exact ⟨show t ≤ t + p by linarith,
                show t + p < t + p + z by linarith, le_of_lt hlt2⟩
            · exact ⟨show t ≤ t + p + z by linarith,
                lt_min (show t + p + z < t + p + z + s by linarith) hlt2,
                min_le_right _ _⟩
            · have hmem := ihA e he
              exact ⟨by linarith [hmem.1], hmem.2.1, hmem.2.2⟩
          · refine List.chain'_cons.mpr ⟨le_refl _, ?_⟩
            refine List.chain'_cons.mpr ⟨le_refl _, ?_⟩
            refine List.chain'_cons'.mpr ⟨?_, ihB⟩
            intro x hx
            have hxmem := List.mem_of_mem_head? hx
            have hx1 := (ihA x hxmem).1
            calc (min (t + p + z + s) D : ℚ) ≤ t + p + z + s := min_le_left _ _
              _ ≤ x.startS := hx1
          · constructor
            · intro hcon
              exact absurd hcon (by simp)
            · intro hle
              exact absurd hle (not_le.mpr h1)
          · intro e he
            rcases hrest : planLoop p z s zl D n (t + p + z + s) with _ | ⟨r, rs⟩
            · have hDle : D ≤ t + p + z + s := ihC.mp hrest
              rw [hrest] at he
              simp only [List.getLast?_cons_cons, List.getLast?_singleton,
                Option.some.injEq] at he
              subst he
              exact le_antisymm (min_le_right _ _) (le_min hDle le_rfl)
            · rw [hrest] at he
              rw [List.getLast?_cons_cons, List.getLast?_cons_cons,
                List.getLast?_cons_cons] at he
              rw [← hrest] at he
              exact ihL e he
    · simp only [planLoop, if_neg h1]
      push_neg at h1
      exact ⟨by simp, by simp, by simp [h1], by simp⟩

/-- C1: for every positive ruleset `(p, z, s)` and `sourceDuration = D ≥ 0`,
the planning loop produces entries whose `(start, end)` spans are strictly
increasing and non-overlapping; when `D = 0` the plan is empty, and
otherwise the final entry's end equals `D`. -/
theorem plan_spans_sound (p z s : ℚ) (zl : ℤ) (D : ℚ)
    (hp : 0 < p) (hz : 0 < z) (hs : 0 < s) (hD : 0 ≤ D) :
    (∀ e ∈ plan p z s zl D, e.startS < e.endS) ∧
    (plan p z s zl D).Chain' (fun a b => a.endS ≤ b.startS) ∧
    (D = 0 → plan p z s zl D = []) ∧
    (0 < D → plan p z s zl D ≠ [] ∧
      ∀ e, (plan p z s zl D).getLast? = some e → e.endS = D) := by
  have hc : 0 < p + z + s := by linarith
  have hfuel : D ≤ 0 + (p + z + s) * (planFuel (p + z + s) D) := by
    have := le_mul_planFuel hc D
    linarith
  obtain ⟨hA, hB, hC, hL⟩ :=
    planLoop_sound p z s zl D hp hz hs (planFuel (p + z + s) D) 0 hfuel
  unfold plan
  refine ⟨fun e he => (hA e he).2.1, hB, ?_, ?_⟩
  · intro h0
    exact hC.mpr (le_of_eq h0)
  · intro hpos
    refine ⟨?_, hL⟩
    intro hnil
    have := hC.mp hnil
    linarith

/-- Witness for `plan_spans_sound` at the ruleset `(15, 5, 3)` and
duration `38`. -/
theorem plan_spans_sound_witness :
    ((0:ℚ) < 15 ∧ (0:ℚ) < 5 ∧ (0:ℚ) < 3 ∧ (0:ℚ) ≤ 38) ∧
    ((∀ e ∈ plan 15 5 3 50 38, e.startS < e.endS) ∧
     (plan 15 5 3 50 38).Chain' (fun a b => a.endS ≤ b.startS) ∧
     ((38:ℚ) = 0 → plan 15 5 3 50 38 = []) ∧
     ((0:ℚ) < 38 → plan 15 5 3 50 38 ≠ [] ∧
       ∀ e, (plan 15 5 3 50 38).getLast? = some e → e.endS = 38)) :=
  ⟨⟨by norm_num, by norm_num, by norm_num, by norm_num⟩,
   plan_spans_sound 15 5 3 50 38 (by norm_num) (by norm_num) (by norm_num)
     (by norm_num)⟩

/-- C2: for `sourceDuration = 38` with `playSeconds = 15`,
`zoomSeconds = 5`, `skipSeconds = 3`, the planner emits exactly
`Play[0,15), Zoom[15,20), Skip[20,23), Play[23,38)`, ending at `t = 38`. -/
theorem plan_scenario_38 :
    plan 15 5 3 50 38 =
      [⟨.play, 0, 15, none⟩, ⟨.zoom, 15, 20, some 50⟩,
       ⟨.skip, 20, 23, none⟩, ⟨.play, 23, 38, none⟩] := by
  norm_num [plan, planFuel, planLoop]

/-- The crop rectangle chosen for a zoom segment, as computed by
`zoom_on_random_spot` (lines 87-95): position `(x, y)` and dimensions
`(width, height) = (zoom_w, zoom_h)`, with `x2 = x + width` and
`y2 = y + height`. -/
structure ZoomRect where
  x : ℤ
  y : ℤ
  width : ℤ
  height : ℤ
deriving DecidableEq

/-- The random crop geometry of `VideoProcessor.zoom_on_random_spot`
(lines 87-95): `zoom_factor = 1 + zoom_level/100`,
`zoom_w = int(w / zoom_factor)`, `zoom_h = int(h / zoom_factor)`,
`x1 = randint(0, max(0, w - zoom_w))`, `y1 = randint(0, max(0, h - zoom_h))`.
`gx` and `gy` are the two draws of the random source. -/
def chooseRect (w h zl : ℤ) (gx gy : ℕ) : ZoomRect :=
  ⟨randint 0 (max 0 (w - pyInt ((w : ℚ) / (1 + (zl : ℚ) / 100)))) gx,
   randint 0 (max 0 (h - pyInt ((h : ℚ) / (1 + (zl : ℚ) / 100)))) gy,
   pyInt ((w : ℚ) / (1 + (zl : ℚ) / 100)),
   pyInt ((h : ℚ) / (1 + (zl : ℚ) / 100))⟩

lemma pyInt_nonneg {q : ℚ} (hq : 0 ≤ q) : 0 ≤ pyInt q := by
  unfold pyInt
  rw [if_pos hq]
  exact Int.floor_nonneg.mpr hq

lemma pyInt_le_intCast {q : ℚ} {m : ℤ} (hq : 0 ≤ q) (hm : q ≤ (m : ℚ)) :
    pyInt q ≤ m := by
  unfold pyInt
  rw [if_pos hq]
  calc ⌊q⌋ ≤ ⌊(m : ℚ)⌋ := Int.floor_le_floor hm
    _ = m := Int.floor_intCast m

lemma one_le_pyInt {q : ℚ} (hq : 1 ≤ q) : 1 ≤ pyInt q := by
  unfold pyInt
  rw [if_pos (by linarith)]
  exact Int.le_floor.mpr (by exact_mod_cast hq)

lemma randint_mem (hi : ℤ) (g : ℕ) (hhi : 0 ≤ hi) :
    0 ≤ randint 0 hi g ∧ randint 0 hi g ≤ hi := by
  unfold randint
  have hpos : 0 < hi - 0 + 1 := by linarith
  constructor
  · have h1 := Int.emod_nonneg (g : ℤ) (ne_of_gt hpos)
    linarith
  · have h2 := Int.emod_lt_of_pos (g : ℤ) hpos
    linarith

/-- C4 (amended): for nonnegative frame dimensions and a nonnegative zoom
percent, the rectangle returned by `chooseRect` always satisfies
`0 ≤ x`, `0 ≤ y`, `x + width ≤ frameWidth`, `y + height ≤ frameHeight`,
for every outcome of the random source.  (A negative zoom percent makes
the crop larger than the frame and violates the bound, see
`chooseRect_out_of_bounds_neg_zoom`.) -/
theorem chooseRect_in_bounds (w h zl : ℤ) (gx gy : ℕ)
    (hw : 0 ≤ w) (hh : 0 ≤ h) (hzl : 0 ≤ zl) :
    0 ≤ (chooseRect w h zl gx gy).x ∧ 0 ≤ (chooseRect w h zl gx gy).y ∧
    (chooseRect w h zl gx gy).x + (chooseRect w h zl gx gy).width ≤ w ∧
    (chooseRect w h zl gx gy).y + (chooseRect w h zl gx gy).height ≤ h := by
  have hzlq : (0:ℚ) ≤ (zl : ℚ) := by exact_mod_cast hzl
  have hf : (1:ℚ) ≤ 1 + (zl : ℚ) / 100 := by linarith
  have hf0 : (0:ℚ) ≤ 1 + (zl : ℚ) / 100 := by linarith
  have hwq : (0:ℚ) ≤ (w:ℚ) := by exact_mod_cast hw
  have hhq : (0:ℚ) ≤ (h:ℚ) := by exact_mod_cast hh
  have hzw0 : 0 ≤ pyInt ((w : ℚ) / (1 + (zl : ℚ) / 100)) :=
    pyInt_nonneg (div_nonneg hwq hf0)
  have hzww : pyInt ((w : ℚ) / (1 + (zl : ℚ) / 100)) ≤ w :=
    pyInt_le_intCast (div_nonneg hwq hf0) (div_le_self hwq hf)
  have hzh0 : 0 ≤ pyInt ((h : ℚ) / (1 + (zl : ℚ) / 100)) :=
    pyInt_nonneg (div_nonneg hhq hf0)
  have hzhh : pyInt ((h : ℚ) / (1 + (zl : ℚ) / 100)) ≤ h :=
    pyInt_le_intCast (div_nonneg hhq hf0) (div_le_self hhq hf)
  have hmaxw : max 0 (w - pyInt ((w : ℚ) / (1 + (zl : ℚ) / 100))) =
      w - pyInt ((w : ℚ) / (1 + (zl : ℚ) / 100)) :=
    max_eq_right (by linarith)
  have hmaxh : max 0 (h - pyInt ((h : ℚ) / (1 + (zl : ℚ) / 100))) =
      h - pyInt ((h : ℚ) / (1 + (zl : ℚ) / 100)) :=
    max_eq_right (by linarith)
  obtain ⟨hx0, hxle⟩ :=
    randint_mem (max 0 (w - pyInt ((w : ℚ) / (1 + (zl : ℚ) / 100)))) gx
      (le_max_left 0 _)
  obtain ⟨hy0, hyle⟩ :=
    randint_mem (max 0 (h - pyInt ((h : ℚ) / (1 + (zl : ℚ) / 100)))) gy
      (le_max_left 0 _)
  have hxle' := le_trans hxle (le_of_eq hmaxw)
  have hyle' := le_trans hyle (le_of_eq hmaxh)
  exact ⟨hx0, hy0, by unfold chooseRect; dsimp only; linarith,
    by unfold chooseRect; dsimp only; linarith⟩

/-- Witness for `chooseRect_in_bounds` at frame `100 × 80`, zoom percent
`50` and random draws `(7, 3)`. -/
theorem chooseRect_in_bounds_witness :
    ((0:ℤ) ≤ 100 ∧ (0:ℤ) ≤ 80 ∧ (0:ℤ) ≤ 50) ∧
    (0 ≤ (chooseRect 100 80 50 7 3).x ∧ 0 ≤ (chooseRect 100 80 50 7 3).y ∧
     (chooseRect 100 80 50 7 3).x + (chooseRect 100 80 50 7 3).width ≤ 100 ∧
     (chooseRect 100 80 50 7 3).y + (chooseRect 100 80 50 7 3).height ≤ 80) :=
  ⟨⟨by norm_num, by norm_num, by norm_num⟩,
   chooseRect_in_bounds 100 80 50 7 3 (by norm_num) (by norm_num) (by norm_num)⟩

/-- Counterexample to C4 as stated: at frame `4 × 4` with zoom percent
`-50` (zoom factor `1/2`, crop width `8 > 4`), the rectangle violates
`x + width ≤ frameWidth`. -/
theorem chooseRect_out_of_bounds_neg_zoom :
    ¬ ((chooseRect 4 4 (-50) 0 0).x + (chooseRect 4 4 (-50) 0 0).width ≤ 4) := by
  norm_num [chooseRect, pyInt, randint]

/-- C5 (amended): for frame dimensions at least `2 × 2` and the zoom
percent `50` used by the code for zoom segments, the chosen crop rectangle
has strictly positive width and height.  (At width or height `1` the crop
dimension `int(1 / 1.5)` collapses to `0`, see
`chooseRect_zero_width_small_frame`.) -/
theorem chooseRect_pos_dims (w h : ℤ) (gx gy : ℕ) (hw : 2 ≤ w) (hh : 2 ≤ h) :
    0 < (chooseRect w h 50 gx gy).width ∧ 0 < (chooseRect w h 50 gx gy).height := by
  have hfac : (1 + ((50:ℤ) : ℚ) / 100) = 3 / 2 := by norm_num
  constructor
  · have h1 : (1:ℚ) ≤ (w : ℚ) / (1 + ((50:ℤ) : ℚ) / 100) := by
      rw [hfac]
      rw [one_le_div (by norm_num : (0:ℚ) < 3 / 2)]
      have : (2:ℚ) ≤ (w : ℚ) := by exact_mod_cast hw
      linarith
    have := one_le_pyInt h1
    unfold chooseRect
    dsimp only
    linarith
  · have h1 : (1:ℚ) ≤ (h : ℚ) / (1 + ((50:ℤ) : ℚ) / 100) := by
      rw [hfac]
      rw [one_le_div (by norm_num : (0:ℚ) < 3 / 2)]
      have : (2:ℚ) ≤ (h : ℚ) := by exact_mod_cast hh
      linarith
    have := one_le_pyInt h1
    unfold chooseRect
    dsimp only
    linarith

/-- Witness for `chooseRect_pos_dims` at frame `2 × 2`. -/
theorem chooseRect_pos_dims_witness :
    ((2:ℤ) ≤ 2 ∧ (2:ℤ) ≤ 2) ∧
    (0 < (chooseRect 2 2 50 0 0).width ∧ 0 < (chooseRect 2 2 50 0 0).height) :=
  ⟨⟨le_refl _, le_refl _⟩, chooseRect_pos_dims 2 2 0 0 (le_refl _) (le_refl _)⟩

/-- Counterexample to C5 as stated: at frame `1 × 1` (positive dimensions)
with the code's zoom percent `50`, the crop width `int(1 / 1.5) = 0` is
not strictly positive. -/
theorem chooseRect_zero_width_small_frame :
    ¬ (0 < (chooseRect 1 1 50 0 0).width) := by
  norm_num [chooseRect, pyInt]

/-- One realized output unit: the plan entry it came from and, for zoom
entries, the crop rectangle chosen from the random source. -/
structure RenderedSeg where
  entry : SegmentPlanEntry
  rect : Option ZoomRect
deriving DecidableEq

/-- The assembly pass of `VideoProcessor.run`: Play entries are realized
by direct sub-range extraction, Zoom entries invoke `chooseRect`
(consuming the two `random.randint` draws at positions `i` and `i + 1` of
the random source), and Skip entries produce no renderable unit. -/
def assembleGo (w h : ℤ) (rng : ℕ → ℕ) : ℕ → List SegmentPlanEntry → List RenderedSeg
  | _, [] => []
  | i, e :: rest =>
    match e.kind with
    | .play => ⟨e, none⟩ :: assembleGo w h rng i rest
    | .zoom =>
        ⟨e, some (chooseRect w h (e.zp.getD 50) (rng i) (rng (i + 1)))⟩ ::
          assembleGo w h rng (i + 2) rest
    | .skip => assembleGo w h rng i rest

lemma assembleGo_entries (w1 h1 w2 h2 : ℤ) (rng1 rng2 : ℕ → ℕ) :
    ∀ (L : List SegmentPlanEntry) (i j : ℕ),
      (assembleGo w1 h1 rng1 i L).map RenderedSeg.entry =
        (assembleGo w2 h2 rng2 j L).map RenderedSeg.entry := by
  intro L
  induction L with
  | nil =>
    intro i j
    rfl
  | cons e rest ih =>
    intro i j
    cases hk : e.kind with
    | play =>
      simp only [assembleGo, hk, List.map_cons]
      rw [ih i j]
    | zoom =>
      simp only [assembleGo, hk, List.map_cons]
      rw [ih (i + 2) (j + 2)]
    | skip =>
      simp only [assembleGo, hk]
      exact ih i j

/-- C9: realizing the same plan (same `sourceDuration` and ruleset) twice
yields identical sequences of plan entries — the same `(kind, start, end)`
tuples and the same zoom-percent sequence — independent of the random
source, which affects only the chosen crop rectangle. -/
theorem plan_deterministic_modulo_rect (p z s : ℚ) (zl : ℤ) (D : ℚ)
    (w h : ℤ) (rng1 rng2 : ℕ → ℕ) :
    (assembleGo w h rng1 0 (plan p z s zl D)).map RenderedSeg.entry =
      (assembleGo w h rng2 0 (plan p z s zl D)).map RenderedSeg.entry :=
  assembleGo_entries w h w h rng1 rng2 (plan p z s zl D) 0 0

/-- Per-entry frame-count increment added to `processed_frames` by the
worker loop: `int((end_15sec - current_time) * clip2.fps)` for Play
entries (line 42), but the constants `int(5 * clip2.fps)` (line 53) and
`int(10 * clip2.fps)` (line 62) for Zoom and Skip entries, regardless of
clamping at the clip end. -/
def framesAdded (fps : ℚ) (e : SegmentPlanEntry) : ℤ :=
  match e.kind with
  | .play => pyInt ((e.endS - e.startS) * fps)
  | .zoom => pyInt (5 * fps)
  | .skip => pyInt (10 * fps)

/-- Defined from the spec's words (§4.1): the per-entry frame count
formula `round((end - start) × frameRate)` claimed for progress
accounting.  Compare with `framesAdded`, which is what the code
computes. -/
def specFrames (fps : ℚ) (e : SegmentPlanEntry) : ℤ :=
  round ((e.endS - e.startS) * fps)

/-- One progress value as emitted on lines 43, 54 and 63:
`min(100, int(100 * processed_frames / total_frames))`. -/
def emitVal (tf pf : ℤ) : ℤ := min 100 (pyInt ((100 * (pf : ℚ)) / (tf : ℚ)))

/-- The successive values taken by `processed_frames`: partial sums of
the per-entry increments, starting from the count `pf`. -/
def accumFrames (pf : ℤ) : List ℤ → List ℤ
  | [] => []
  | a :: l => (pf + a) :: accumFrames (pf + a) l

/-- Total frame count `total_frames = int(clip2.fps * clip2.duration)`
(line 32). -/
def totalFrames (fps D : ℚ) : ℤ := pyInt (fps * D)

/-- Result of the worker loop: the realized segments, the emitted
progress percentages, and the index of the next read of the cooperative
`self.running` flag. -/
structure JobResult where
  segs : List SegmentPlanEntry
  emits : List ℤ
  checks : ℕ
deriving DecidableEq

/-- The worker loop of `VideoProcessor.run` (lines 32-63) with the
source's constants: play windows of 45 s, zoom windows of 5 s at percent
50, and a skip advance of exactly 10 s.  `running k` is the value the
`k`-th read of the cooperative flag observes — the flag is read once per
iteration in the `while` condition, so one positive read covers the whole
play-zoom-skip iteration.  `t` is `current_time`, `pf` is
`processed_frames`, `tf` is `total_frames`, and `fuel` bounds the
iteration count (`planFuel 60 D` always suffices). -/
def jobLoop (fps D : ℚ) (tf : ℤ) (running : ℕ → Bool) :
    ℕ → ℚ → ℤ → ℕ → JobResult
  | 0, _, _, k => ⟨[], [], k⟩
  | fuel + 1, t, pf, k =>
    if t < D then
      if running k then
        if D ≤ min (t + 45) D then
          ⟨[⟨.play, t, min (t + 45) D, none⟩],
           [emitVal tf (pf + pyInt ((min (t + 45) D - t) * fps))], k + 1⟩
        else
          if D ≤ min (min (t + 45) D + 5) D then
            ⟨[⟨.play, t, min (t + 45) D, none⟩,
              ⟨.zoom, min (t + 45) D, min (min (t + 45) D + 5) D, some 50⟩],
             [emitVal tf (pf + pyInt ((min (t + 45) D - t) * fps)),
              emitVal tf (pf + pyInt ((min (t + 45) D - t) * fps) +
                pyInt (5 * fps))], k + 1⟩
          else
            let r := jobLoop fps D tf running fuel
              (min (min (t + 45) D + 5) D + 10)
              (pf + pyInt ((min (t + 45) D - t) * fps) + pyInt (5 * fps) +
                pyInt (10 * fps)) (k + 1)
            ⟨⟨.play, t, min (t + 45) D, none⟩ ::
             ⟨.zoom, min (t + 45) D, min (min (t + 45) D + 5) D, some 50⟩ ::
             ⟨.skip, min (min (t + 45) D + 5) D,
               min (min (min (t + 45) D + 5) D + 10) D, none⟩ :: r.segs,
             emitVal tf (pf + pyInt ((min (t + 45) D - t) * fps)) ::
             emitVal tf (pf + pyInt ((min (t + 45) D - t) * fps) +
               pyInt (5 * fps)) ::
             emitVal tf (pf + pyInt ((min (t + 45) D - t) * fps) +
               pyInt (5 * fps) + pyInt (10 * fps)) :: r.emits,
             r.checks⟩
      else ⟨[], [], k⟩
    else ⟨[], [], k⟩

/-- The cooperative flag of a run on which `stop()` is never called. -/
def alwaysRun : ℕ → Bool := fun _ => true

/-- A full worker run: the loop started at `current_time = 0`,
`processed_frames = 0` and flag-read index `0`, with enough fuel for the
whole clip. -/
def jobRun (fps D : ℚ) (running : ℕ → Bool) : JobResult :=
  jobLoop fps D (totalFrames fps D) running (planFuel 60 D) 0 0 0

/-- The progress values emitted during an uncancelled run. -/
def runEmits (fps D : ℚ) : List ℤ := (jobRun fps D alwaysRun).emits

/-- The completion gate `if self.running:` (line 65): `some outPath`
models concatenation, watermarking, the encode of the output file at
`outPath` and the `processing_finished` event; `none` models the
cancellation path on which none of those happen and no file is written. -/
def jobFinal (fps D : ℚ) (running : ℕ → Bool) (outPath : String) :
    Option String :=
  if running (jobRun fps D running).checks then some outPath else none

lemma jobLoop_emits_eq_accum (fps D : ℚ) (tf : ℤ) :
    ∀ fuel : ℕ, ∀ (t : ℚ) (pf : ℤ) (k : ℕ),
      (jobLoop fps D tf alwaysRun fuel t pf k).emits =
        (accumFrames pf ((planLoop 45 5 10 50 D fuel t).map
          (framesAdded fps))).map (emitVal tf) := by
  intro fuel
  induction fuel with
  | zero =>
    intro t pf k
    rfl
  | succ n ih =>
    intro t pf k
    have hr : alwaysRun k = true := rfl
    by_cases h1 : t < D
    · by_cases h2 : D ≤ min (t + 45) D
      · simp only [jobLoop, planLoop, if_pos h1, if_pos hr, if_pos h2]
        simp [accumFrames, framesAdded]
      · by_cases h3 : D ≤ min (min (t + 45) D + 5) D
        · simp only [jobLoop, planLoop, if_pos h1, if_pos hr, if_neg h2,
            if_pos h3]
          simp [accumFrames, framesAdded]
        · simp only [jobLoop, planLoop, if_pos h1, if_pos hr, if_neg h2,
            if_neg h3]
          simp only [accumFrames, framesAdded, List.map_cons]
          simp only [List.cons.injEq, true_and]
          exact ih (min (min (t + 45) D + 5) D + 10)
            (pf + pyInt ((min (t + 45) D - t) * fps) + pyInt (5 * fps) +
              pyInt (10 * fps)) (k + 1)
    · simp only [jobLoop, planLoop, if_neg h1]
      rfl

/-- C6 (amended): the worker's progress emissions are exactly the
clamped percentages of the running totals of per-entry frame increments
over the plan, where a Play entry adds `int((end - start) * fps)`
(truncation, not rounding), and Zoom and Skip entries add the constants
`int(5 * fps)` and `int(10 * fps)` regardless of clamping — so Skip
entries' frames do count toward the processed total although they
produce no output. -/
theorem frames_accounting (fps D : ℚ) :
    runEmits fps D =
      (accumFrames 0 ((plan 45 5 10 50 D).map (framesAdded fps))).map
        (emitVal (totalFrames fps D)) := by
  have h60 : (45 : ℚ) + 5 + 10 = 60 := by norm_num
  unfold runEmits jobRun plan
  rw [h60]
  exact jobLoop_emits_eq_accum fps D (totalFrames fps D) (planFuel 60 D) 0 0 0

/-- Counterexample to C6 as stated: for `D = 47` s at `fps = 24`, the
plan is `Play[0,45), Zoom[45,47)`; the code adds `int(5*24) = 120` frames
for the clamped 2-second Zoom entry, while `round((47-45)*24) = 48`. -/
theorem frames_not_round :
    (plan 45 5 10 50 47).map (framesAdded 24) ≠
      (plan 45 5 10 50 47).map (specFrames 24) := by
  norm_num [plan, planFuel, planLoop, framesAdded, specFrames, pyInt,
    round_eq]

lemma jobLoop_emits_le_100 (fps D : ℚ) (tf : ℤ) (running : ℕ → Bool) :
    ∀ fuel : ℕ, ∀ (t : ℚ) (pf : ℤ) (k : ℕ),
      ∀ v ∈ (jobLoop fps D tf running fuel t pf k).emits, v ≤ 100 := by
  intro fuel
  induction fuel with
  | zero =>
    intro t pf k v hv
    simp [jobLoop] at hv
  | succ n ih =>
    intro t pf k v hv
    by_cases h1 : t < D
    · by_cases hr : running k = true
      · by_cases h2 : D ≤ min (t + 45) D
        · simp only [jobLoop, if_pos h1, if_pos hr, if_pos h2,
            List.mem_singleton] at hv
          subst hv
          exact min_le_left _ _
        · by_cases h3 : D ≤ min (min (t + 45) D + 5) D
          · simp only [jobLoop, if_pos h1, if_pos hr, if_neg h2, if_pos h3,
              List.mem_cons, List.not_mem_nil, or_false] at hv
            rcases hv with rfl | rfl
            · exact min_le_left _ _
            · exact min_le_left _ _
          · simp only [jobLoop, if_pos h1, if_pos hr, if_neg h2,
              if_neg h3, List.mem_cons] at hv
            rcases hv with rfl | rfl | rfl | hv
            · exact min_le_left _ _
            · exact min_le_left _ _
            · exact min_le_left _ _
            · exact ih _ _ _ v hv
      · simp only [jobLoop, if_pos h1, if_neg hr] at hv
        simp at hv
    · simp only [jobLoop, if_neg h1] at hv
      simp at hv

/-- C10: every progress value the worker emits is at most `100`, because
each emitted value is clamped with `min(100, ...)` — even when the
accumulated processed-frame count exceeds the computed total (as happens
when the skip advance overshoots the clip end). -/
theorem progress_le_100 (fps D : ℚ) : ∀ v ∈ runEmits fps D, v ≤ 100 :=
  fun v hv => jobLoop_emits_le_100 fps D (totalFrames fps D) alwaysRun
    (planFuel 60 D) 0 0 0 v hv

/-- Witness for `progress_le_100`: at `fps = 24`, `D = 38` the single
emitted value is `100 ≤ 100`. -/
theorem progress_le_100_witness :
    (100 : ℤ) ∈ runEmits 24 38 ∧ (100 : ℤ) ≤ 100 := by
  have hv : (100 : ℤ) ∈ runEmits 24 38 := by
    norm_num [runEmits, jobRun, jobLoop, alwaysRun, totalFrames, planFuel,
      emitVal, pyInt]
  exact ⟨hv, progress_le_100 24 38 100 hv⟩

lemma pyInt_mono {a b : ℚ} (hab : a ≤ b) : pyInt a ≤ pyInt b := by
  unfold pyInt
  split_ifs with ha hb hb
  · exact Int.floor_le_floor hab
  · exact absurd (le_trans ha hab) hb
  · calc ⌈a⌉ ≤ ⌈(0 : ℚ)⌉ := Int.ceil_le_ceil (le_of_not_le ha)
      _ = 0 := by simp
      _ ≤ ⌊b⌋ := Int.floor_nonneg.mpr hb
  · exact Int.ceil_le_ceil hab

lemma emitVal_mono {tf : ℤ} (htf : 0 < tf) {pf pf' : ℤ} (hpf : pf ≤ pf') :
    emitVal tf pf ≤ emitVal tf pf' := by
  unfold emitVal
  have htfq : (0:ℚ) < (tf : ℚ) := by exact_mod_cast htf
  have hnum : (100 * (pf : ℚ)) ≤ 100 * (pf' : ℚ) := by
    have : (pf : ℚ) ≤ (pf' : ℚ) := by exact_mod_cast hpf
    linarith
  exact min_le_min le_rfl (pyInt_mono ((div_le_div_right htfq).mpr hnum))

lemma pyInt_intCast (m : ℤ) : pyInt (m : ℚ) = m := by
  unfold pyInt
  split_ifs with h
  · exact Int.floor_intCast m
  · exact Int.ceil_intCast m

lemma emitVal_eq_100 {tf pf : ℤ} (htf : 0 < tf) (hpf : tf ≤ pf) :
    emitVal tf pf = 100 := by
  unfold emitVal
  have htfq : (0:ℚ) < (tf : ℚ) := by exact_mod_cast htf
  have hpfq : (tf : ℚ) ≤ (pf : ℚ) := by exact_mod_cast hpf
  have h100 : (100:ℚ) ≤ (100 * (pf : ℚ)) / tf := by
    rw [le_div_iff htfq]
    linarith
  have h0 : (0:ℚ) ≤ (100 * (pf : ℚ)) / tf := by linarith
  unfold pyInt
  rw [if_pos h0]
  exact min_eq_left (Int.le_floor.mpr (by exact_mod_cast h100))

lemma jobLoop_emits_chain (fps D : ℚ) (tf : ℤ) (running : ℕ → Bool)
    (hstep : ∀ (pf : ℤ) (x : ℚ), 0 ≤ x →
      emitVal tf pf ≤ emitVal tf (pf + pyInt (x * fps))) :
    ∀ fuel : ℕ, ∀ (t : ℚ) (pf : ℤ) (k : ℕ),
      (jobLoop fps D tf running fuel t pf k).emits.Chain' (· ≤ ·) ∧
      ∀ v ∈ (jobLoop fps D tf running fuel t pf k).emits,
        emitVal tf pf ≤ v := by
  intro fuel
  induction fuel with
  | zero =>
    intro t pf k
    exact ⟨List.chain'_nil, by intro v hv; simp [jobLoop] at hv⟩
  | succ n ih =>
    intro t pf k
    by_cases h1 : t < D
    · by_cases hr : running k = true
      · have hmin : t ≤ min (t + 45) D := le_min (by linarith) (le_of_lt h1)
        have hs1 : emitVal tf pf ≤
            emitVal tf (pf + pyInt ((min (t + 45) D - t) * fps)) :=
          hstep pf (min (t + 45) D - t) (by linarith)
        have hs2 : emitVal tf (pf + pyInt ((min (t + 45) D - t) * fps)) ≤
            emitVal tf (pf + pyInt ((min (t + 45) D - t) * fps) +
              pyInt (5 * fps)) :=
          hstep (pf + pyInt ((min (t + 45) D - t) * fps)) 5 (by norm_num)
        have hs3 : emitVal tf (pf + pyInt ((min (t + 45) D - t) * fps) +
              pyInt (5 * fps)) ≤
            emitVal tf (pf + pyInt ((min (t + 45) D - t) * fps) +
              pyInt (5 * fps) + pyInt (10 * fps)) :=
          hstep (pf + pyInt ((min (t + 45) D - t) * fps) + pyInt (5 * fps))
            10 (by norm_num)
        by_cases h2 : D ≤ min (t + 45) D
        · simp only [jobLoop, if_pos h1, if_pos hr, if_pos h2]
          refine ⟨List.chain'_singleton _, ?_⟩
          intro v hv
          simp only [List.mem_singleton] at hv
          subst hv
          exact hs1
        · by_cases h3 : D ≤ min (min (t + 45) D + 5) D
          · simp only [jobLoop, if_pos h1, if_pos hr, if_neg h2, if_pos h3]
            constructor
            · exact List.chain'_cons.mpr ⟨hs2, List.chain'_singleton _⟩
            · intro v hv
              simp only [List.mem_cons, List.not_mem_nil, or_false] at hv
              rcases hv with rfl | rfl
              · exact hs1
              · exact le_trans hs1 hs2
          · obtain ⟨ihC, ihM⟩ := ih (min (min (t + 45) D + 5) D + 10)
              (pf + pyInt ((min (t + 45) D - t) * fps) + pyInt (5 * fps) +
                pyInt (10 * fps)) (k + 1)
            simp only [jobLoop, if_pos h1, if_pos hr, if_neg h2, if_neg h3]
            constructor
            · refine List.chain'_cons.mpr ⟨hs2, ?_⟩
              refine List.chain'_cons.mpr ⟨hs3, ?_⟩
              refine List.chain'_cons'.mpr ⟨?_, ihC⟩
              intro x hx
              exact ihM x (List.mem_of_mem_head? hx)
            · intro v hv
              simp only [List.mem_cons] at hv
              rcases hv with rfl | rfl | rfl | hv
              · exact hs1
              · exact le_trans hs1 hs2
              · exact le_trans (le_trans hs1 hs2) hs3
              · exact le_trans (le_trans (le_trans hs1 hs2) hs3) (ihM v hv)
      · simp only [jobLoop, if_pos h1, if_neg hr]
        exact ⟨List.chain'_nil, by intro v hv; simp at hv⟩
    · simp only [jobLoop, if_neg h1]
      exact ⟨List.chain'_nil, by intro v hv; simp at hv⟩

lemma emitVal_step_of_pos (fps : ℚ) (tf : ℤ) (hfps : 0 ≤ fps) (htf : 0 < tf) :
    ∀ (pf : ℤ) (x : ℚ), 0 ≤ x →
      emitVal tf pf ≤ emitVal tf (pf + pyInt (x * fps)) := by
  intro pf x hx
  have h := pyInt_nonneg (mul_nonneg hx hfps)
  exact emitVal_mono htf (by omega)

lemma emitVal_tf_zero (pf : ℤ) : emitVal 0 pf = 0 := by
  unfold emitVal pyInt
  norm_num

lemma emitVal_anti {tf : ℤ} (htf : tf < 0) {pf pf' : ℤ} (hpf : pf' ≤ pf) :
    emitVal tf pf ≤ emitVal tf pf' := by
  unfold emitVal
  have htfq : (tf : ℚ) < 0 := by exact_mod_cast htf
  have hnum : (100 * (pf' : ℚ)) ≤ 100 * (pf : ℚ) := by
    have : (pf' : ℚ) ≤ (pf : ℚ) := by exact_mod_cast hpf
    linarith
  have hq : (100 * (pf : ℚ)) / tf ≤ (100 * (pf' : ℚ)) / tf := by
    rw [div_eq_mul_inv, div_eq_mul_inv]
    exact mul_le_mul_of_nonpos_right hnum (inv_nonpos.mpr (le_of_lt htfq))
  exact min_le_min le_rfl (pyInt_mono hq)

lemma pyInt_nonpos {q : ℚ} (hq : q ≤ 0) : pyInt q ≤ 0 := by
  unfold pyInt
  split_ifs with h
  · calc ⌊q⌋ ≤ ⌊(0 : ℚ)⌋ := Int.floor_le_floor hq
      _ = 0 := Int.floor_zero
  · calc ⌈q⌉ ≤ ⌈(0 : ℚ)⌉ := Int.ceil_le_ceil hq
      _ = 0 := Int.ceil_zero

lemma emitVal_step_of_neg (fps : ℚ) (tf : ℤ) (hfps : fps ≤ 0) (htf : tf < 0) :
    ∀ (pf : ℤ) (x : ℚ), 0 ≤ x →
      emitVal tf pf ≤ emitVal tf (pf + pyInt (x * fps)) := by
  intro pf x hx
  have h := pyInt_nonpos (mul_nonpos_of_nonneg_of_nonpos hx hfps)
  exact emitVal_anti htf (by omega)

lemma jobLoop_emits_done (fps D : ℚ) (tf : ℤ) (running : ℕ → Bool)
    (fuel : ℕ) (t : ℚ) (pf : ℤ) (k : ℕ) (hD : D ≤ t) :
    (jobLoop fps D tf running fuel t pf k).emits = [] := by
  cases fuel with
  | zero => rfl
  | succ n => simp only [jobLoop, if_neg (not_lt.mpr hD)]

lemma runEmits_chain (fps D : ℚ) : (runEmits fps D).Chain' (· ≤ ·) := by
  unfold runEmits jobRun
  by_cases hD : 0 < D
  · by_cases hfps : 0 ≤ fps
    · have htf0 : 0 ≤ totalFrames fps D :=
        pyInt_nonneg (mul_nonneg hfps (le_of_lt hD))
      rcases lt_or_eq_of_le htf0 with htf | htf
      · exact (jobLoop_emits_chain fps D (totalFrames fps D) alwaysRun
          (emitVal_step_of_pos fps (totalFrames fps D) hfps htf)
          (planFuel 60 D) 0 0 0).1
      · refine (jobLoop_emits_chain fps D (totalFrames fps D) alwaysRun
          ?_ (planFuel 60 D) 0 0 0).1
        intro pf x _
        rw [← htf, emitVal_tf_zero, emitVal_tf_zero]
    · push_neg at hfps
      have htfle : totalFrames fps D ≤ 0 :=
        pyInt_nonpos (mul_nonpos_of_nonpos_of_nonneg (le_of_lt hfps)
          (le_of_lt hD))
      rcases lt_or_eq_of_le htfle with htf | htf
      · exact (jobLoop_emits_chain fps D (totalFrames fps D) alwaysRun
          (emitVal_step_of_neg fps (totalFrames fps D) (le_of_lt hfps) htf)
          (planFuel 60 D) 0 0 0).1
      · refine (jobLoop_emits_chain fps D (totalFrames fps D) alwaysRun
          ?_ (planFuel 60 D) 0 0 0).1
        intro pf x _
        rw [htf, emitVal_tf_zero, emitVal_tf_zero]
  · push_neg at hD
    rw [jobLoop_emits_done fps D (totalFrames fps D) alwaysRun
      (planFuel 60 D) 0 0 0 hD]
    exact List.chain'_nil

lemma jobLoop_emits_ne_nil (fps D : ℚ) (tf : ℤ) :
    ∀ (fuel : ℕ) (t : ℚ) (pf : ℤ) (k : ℕ), t < D → D ≤ t + 60 * fuel →
      (jobLoop fps D tf alwaysRun fuel t pf k).emits ≠ [] := by
  intro fuel t pf k h1 hfuel
  cases fuel with
  | zero =>
    push_cast at hfuel
    exact absurd h1 (not_lt.mpr (by linarith))
  | succ n =>
    have hr : alwaysRun k = true := rfl
    simp only [jobLoop, if_pos h1, if_pos hr]
    split_ifs <;> simp

lemma jobLoop_last_100 (n : ℕ) (D : ℚ) (tf : ℤ) (htf : 0 < tf)
    (htfD : (tf : ℤ) ≤ ⌊(n : ℚ) * D⌋) :
    ∀ fuel : ℕ, ∀ (t : ℚ) (pf : ℤ) (k : ℕ),
      D ≤ t + 60 * fuel → t < D → (pf : ℚ) = (n : ℚ) * t →
      ∀ v, (jobLoop (n : ℚ) D tf alwaysRun fuel t pf k).emits.getLast? =
        some v → v = 100 := by
  have htfDq : (tf : ℚ) ≤ (n : ℚ) * D :=
    le_trans (by exact_mod_cast htfD) (Int.floor_le _)
  intro fuel
  induction fuel with
  | zero =>
    intro t pf k hfuel h1 hpf v hv
    push_cast at hfuel
    linarith
  | succ m ih =>
    intro t pf k hfuel h1 hpf v hv
    have hr : alwaysRun k = true := rfl
    have hn0 : (0:ℚ) ≤ (n:ℚ) := Nat.cast_nonneg n
    by_cases h2 : D ≤ min (t + 45) D
    · have hE1 : min (t + 45) D = D := le_antisymm (min_le_right _ _) h2
      simp only [jobLoop, if_pos h1, if_pos hr, if_pos h2,
        List.getLast?_singleton, Option.some.injEq] at hv
      subst hv
      rw [hE1]
      have hq0 : (0:ℚ) ≤ (D - t) * (n:ℚ) := mul_nonneg (by linarith) hn0
      have hsub : (D - t) * (n:ℚ) = (n:ℚ) * D - (pf : ℤ) := by
        rw [hpf]; ring
      have hfl : pyInt ((D - t) * (n:ℚ)) = ⌊(n:ℚ) * D⌋ - pf := by
        unfold pyInt
        rw [if_pos hq0, hsub, Int.floor_sub_int]
      rw [hfl]
      exact emitVal_eq_100 htf (by omega)
    · have hlt : t + 45 < D := by
        by_contra hge
        push_neg at hge
        exact h2 (le_min hge le_rfl)
      have hE1eq : min (t + 45) D = t + 45 := min_eq_left (le_of_lt hlt)
      have e1 : pyInt ((min (t + 45) D - t) * (n:ℚ)) = 45 * (n:ℤ) := by
        rw [hE1eq]
        have h45 : (t + 45 - t) * (n:ℚ) = ((45 * (n:ℤ) : ℤ) : ℚ) := by
          push_cast; ring
        rw [h45, pyInt_intCast]
      have e2 : pyInt (5 * (n:ℚ)) = 5 * (n:ℤ) := by
        have h5 : (5:ℚ) * (n:ℚ) = ((5 * (n:ℤ) : ℤ) : ℚ) := by push_cast; ring
        rw [h5, pyInt_intCast]
      have e3 : pyInt (10 * (n:ℚ)) = 10 * (n:ℤ) := by
        have h10 : (10:ℚ) * (n:ℚ) = ((10 * (n:ℤ) : ℤ) : ℚ) := by
          push_cast; ring
        rw [h10, pyInt_intCast]
      by_cases h3 : D ≤ min (min (t + 45) D + 5) D
      · simp only [jobLoop, if_pos h1, if_pos hr, if_neg h2, if_pos h3,
          List.getLast?_cons_cons, List.getLast?_singleton,
          Option.some.injEq] at hv
        subst hv
        rw [e1, e2]
        have hD50 : D ≤ t + 50 := by
          have h' := le_trans h3 (min_le_left _ _)
          rw [hE1eq] at h'
          linarith
        have hnD : (n:ℚ) * D ≤ (n:ℚ) * (t + 50) :=
          mul_le_mul_of_nonneg_left hD50 hn0
        have hexp : (n:ℚ) * (t + 50) = (pf:ℤ) + 45 * (n:ℚ) + 5 * (n:ℚ) := by
          rw [hpf]; ring
        refine emitVal_eq_100 htf ?_
        have : (tf : ℚ) ≤ ((pf + 45 * (n:ℤ) + 5 * (n:ℤ) : ℤ) : ℚ) := by
          push_cast
          push_cast at hexp
          linarith
        exact_mod_cast this
      · have hlt2 : t + 45 + 5 < D := by
          by_contra hge
          push_neg at hge
          apply h3
          rw [hE1eq]
          exact le_min hge le_rfl
        have hE2eq : min (min (t + 45) D + 5) D = t + 45 + 5 := by
          rw [hE1eq]
          exact min_eq_left (le_of_lt hlt2)
        simp only [jobLoop, if_pos h1, if_pos hr, if_neg h2, if_neg h3] at hv
        by_cases h4 : D ≤ t + 45 + 5 + 10
        · have hnil := jobLoop_emits_done (n:ℚ) D tf alwaysRun m
            (min (min (t + 45) D + 5) D + 10)
            (pf + pyInt ((min (t + 45) D - t) * (n:ℚ)) + pyInt (5 * (n:ℚ)) +
              pyInt (10 * (n:ℚ))) (k + 1) (by rw [hE2eq]; linarith)
          rw [hnil] at hv
          simp only [List.getLast?_cons_cons, List.getLast?_singleton,
            Option.some.injEq] at hv
          subst hv
          rw [e1, e2, e3]
          have hnD : (n:ℚ) * D ≤ (n:ℚ) * (t + 60) :=
            mul_le_mul_of_nonneg_left (by linarith) hn0
          have hexp : (n:ℚ) * (t + 60) =
              (pf:ℤ) + 45 * (n:ℚ) + 5 * (n:ℚ) + 10 * (n:ℚ) := by
            rw [hpf]; ring
          refine emitVal_eq_100 htf ?_
          have : (tf : ℚ) ≤
              ((pf + 45 * (n:ℤ) + 5 * (n:ℤ) + 10 * (n:ℤ) : ℤ) : ℚ) := by
            push_cast
            push_cast at hexp
            linarith
          exact_mod_cast this
        · push_neg at h4
          have hfuel' : D ≤ (min (min (t + 45) D + 5) D + 10) + 60 * m := by
            rw [hE2eq]
            push_cast at hfuel
            linarith
          have hlt' : min (min (t + 45) D + 5) D + 10 < D := by
            rw [hE2eq]
            linarith
          have hpf' : ((pf + pyInt ((min (t + 45) D - t) * (n:ℚ)) +
              pyInt (5 * (n:ℚ)) + pyInt (10 * (n:ℚ)) : ℤ) : ℚ) =
              (n:ℚ) * (min (min (t + 45) D + 5) D + 10) := by
            rw [e1, e2, e3, hE2eq]
            push_cast
            rw [hpf]
            ring
          have hne := jobLoop_emits_ne_nil (n:ℚ) D tf m
            (min (min (t + 45) D + 5) D + 10)
            (pf + pyInt ((min (t + 45) D - t) * (n:ℚ)) + pyInt (5 * (n:ℚ)) +
              pyInt (10 * (n:ℚ))) (k + 1) hlt' hfuel'
          obtain ⟨w, ws, hws⟩ := List.exists_cons_of_ne_nil hne
          rw [hws, List.getLast?_cons_cons, List.getLast?_cons_cons,
            List.getLast?_cons_cons, ← hws] at hv
          exact ih (min (min (t + 45) D + 5) D + 10)
            (pf + pyInt ((min (t + 45) D - t) * (n:ℚ)) + pyInt (5 * (n:ℚ)) +
              pyInt (10 * (n:ℚ))) (k + 1) hfuel' hlt' hpf' v hv

/-- C3 (amended): the sequence of progress percentages emitted within
one job is non-decreasing, for every frame rate and duration; and when
the frame rate is a positive integer giving at least one total frame,
the last value emitted — the one just before the completion event — is
exactly `100`.  (For fractional frame rates the final value can fall
short of `100`, see `progress_last_not_100_fractional_fps`.) -/
theorem progress_monotone_last_100 (fps D : ℚ) :
    (runEmits fps D).Chain' (· ≤ ·) ∧
    (∀ n : ℕ, 0 < n → fps = (n : ℚ) → 1 ≤ fps * D →
      (runEmits fps D).getLast? = some 100) := by
  constructor
  · exact runEmits_chain fps D
  · intro n hn hfn hD1
    subst hfn
    have hnq : (0:ℚ) < (n:ℚ) := by exact_mod_cast hn
    have hDpos : 0 < D := by nlinarith
    have h0 : (0:ℚ) ≤ (n:ℚ) * D := by linarith
    have htf_eq : totalFrames (n:ℚ) D = ⌊(n:ℚ) * D⌋ := by
      unfold totalFrames pyInt
      rw [if_pos h0]
    have htf1 : (1:ℤ) ≤ totalFrames (n:ℚ) D := by
      rw [htf_eq]
      exact Int.le_floor.mpr (by exact_mod_cast hD1)
    have htf : 0 < totalFrames (n:ℚ) D := by linarith
    have htfD : totalFrames (n:ℚ) D ≤ ⌊(n:ℚ) * D⌋ := le_of_eq htf_eq
    have hfuel : D ≤ 0 + 60 * ((planFuel 60 D : ℕ) : ℚ) := by
      have h60 := le_mul_planFuel (show (0:ℚ) < 60 by norm_num) D
      linarith
    unfold runEmits jobRun
    have hne := jobLoop_emits_ne_nil (n:ℚ) D (totalFrames (n:ℚ) D)
      (planFuel 60 D) 0 0 0 hDpos (by linarith)
    obtain ⟨v, hv⟩ := Option.isSome_iff_exists.mp (List.getLast?_isSome.mpr hne)
    rw [hv]
    have h100 := jobLoop_last_100 n D (totalFrames (n:ℚ) D) htf htfD
      (planFuel 60 D) 0 0 0 (by linarith) hDpos (by push_cast; ring) v hv
    rw [h100]

/-- Witness for `progress_monotone_last_100` at `fps = 24`, `D = 38`:
the monotone chain holds and, `24` being a positive integer frame rate
with `1 ≤ 24 * 38`, the last emitted value is `100`. -/
theorem progress_monotone_last_100_witness :
    (0 < 24 ∧ (24 : ℚ) = ((24 : ℕ) : ℚ) ∧ (1 : ℚ) ≤ 24 * 38) ∧
    ((runEmits 24 38).Chain' (· ≤ ·) ∧
     (runEmits 24 38).getLast? = some 100) :=
  ⟨⟨by norm_num, by norm_num, by norm_num⟩,
   ⟨(progress_monotone_last_100 24 38).1,
    (progress_monotone_last_100 24 38).2 24 (by norm_num) (by norm_num)
      (by norm_num)⟩⟩

/-- Counterexample to C3 as stated: at the NTSC frame rate
`23.976 = 2997/125` and duration `105` s, the emitted progress sequence
is `[42, 47, 57, 99]` — the last value before the completion event is
`99`, not `100`, because the truncated per-entry increments
(`int(45 * 23.976) = 1078` three times plus `119` and `239`) sum to
`2514 < total_frames = 2517`. -/
theorem progress_last_not_100_fractional_fps :
    (runEmits (2997 / 125) 105).getLast? = some 99 ∧
    (runEmits (2997 / 125) 105).getLast? ≠ some 100 := by
  have h : runEmits (2997 / 125) 105 = [42, 47, 57, 99] := by
    norm_num [runEmits, jobRun, jobLoop, alwaysRun, totalFrames, planFuel,
      emitVal, pyInt]
  rw [h]
  norm_num

/-- C7: if `stop()` is observed by the worker at or before its final
check of the cooperative flag — the flag is monotone: once cleared it
stays cleared — then the completion block guarded by `if self.running:`
(line 65) does not execute: no concatenation or encode happens, no
`processing_finished` event is emitted, and no file appears at the output
path (`jobFinal` returns `none`). -/
theorem stop_means_no_output (fps D : ℚ) (running : ℕ → Bool)
    (outPath : String)
    (hmono : ∀ i j : ℕ, i ≤ j → running i = false → running j = false)
    (j : ℕ) (hj : j ≤ (jobRun fps D running).checks)
    (hstop : running j = false) :
    jobFinal fps D running outPath = none := by
  unfold jobFinal
  have hfalse := hmono j _ hj hstop
  rw [hfalse]
  rfl

/-- Witness for `stop_means_no_output`: a run whose flag is cleared from
the start emits no completion and writes no file. -/
theorem stop_means_no_output_witness :
    (∀ i j : ℕ, i ≤ j → (fun _ : ℕ => false) i = false →
      (fun _ : ℕ => false) j = false) ∧
    0 ≤ (jobRun 24 38 (fun _ => false)).checks ∧
    (fun _ : ℕ => false) 0 = false ∧
    jobFinal 24 38 (fun _ => false) "out.mp4" = none :=
  ⟨fun _ _ _ h => h, Nat.zero_le _, rfl,
   stop_means_no_output 24 38 (fun _ => false) "out.mp4" (fun _ _ _ h => h)
     0 (Nat.zero_le _) rfl⟩

/-- Counterexample to C8 as stated: with the flag observed `true` only at
read `0` (so `stop()` arrives right after the first `while`-condition
check), the worker still realizes three segments —
`Play[0,45), Zoom[45,50), Skip[50,60)` — before ceasing, after a single
flag read.  The flag is therefore checked once per loop iteration, not at
every plan-entry boundary, and more than the single in-flight segment is
realized after `stop()`. -/
theorem one_check_three_segments :
    (jobRun 24 100 (fun i => decide (i = 0))).segs =
      [⟨.play, 0, 45, none⟩, ⟨.zoom, 45, 50, some 50⟩,
       ⟨.skip, 50, 60, none⟩] ∧
    (jobRun 24 100 (fun i => decide (i = 0))).checks = 1 := by
  norm_num [jobRun, jobLoop, planFuel, totalFrames, emitVal, pyInt]

lemma jobLoop_segs_length_bound (fps D : ℚ) (tf : ℤ) (running : ℕ → Bool)
    (hmono : ∀ i j : ℕ, i ≤ j → running i = false → running j = false)
    (m : ℕ) (hm : running m = false) :
    ∀ fuel : ℕ, ∀ (t : ℚ) (pf : ℤ) (k : ℕ),
      (jobLoop fps D tf running fuel t pf k).segs.length ≤ 3 * (m - k) := by
  intro fuel
  induction fuel with
  | zero =>
    intro t pf k
    simp [jobLoop]
  | succ n ih =>
    intro t pf k
    by_cases h1 : t < D
    · by_cases hr : running k = true
      · have hkm : k < m := by
          by_contra hge
          push_neg at hge
          rw [hmono m k hge hm] at hr
          exact absurd hr (by simp)
        by_cases h2 : D ≤ min (t + 45) D
        · simp only [jobLoop, if_pos h1, if_pos hr, if_pos h2,
            List.length_cons, List.length_nil]
          omega
        · by_cases h3 : D ≤ min (min (t + 45) D + 5) D
          · simp only [jobLoop, if_pos h1, if_pos hr, if_neg h2, if_pos h3,
              List.length_cons, List.length_nil]
            omega
          · have hrec := ih (min (min (t + 45) D + 5) D + 10)
              (pf + pyInt ((min (t + 45) D - t) * fps) + pyInt (5 * fps) +
                pyInt (10 * fps)) (k + 1)
            simp only [jobLoop, if_pos h1, if_pos hr, if_neg h2, if_neg h3,
              List.length_cons]
            omega
      · simp only [jobLoop, if_pos h1, if_neg hr, List.length_nil]
        omega
    · simp only [jobLoop, if_neg h1, List.length_nil]
      omega

/-- C8 (amended): the cooperative flag is checked once per loop
iteration (in the `while` condition, before the Play segment), not at
every plan-entry boundary; consequently, if the flag reads `false` from
check `m` on, the worker realizes at most `3 * m` segments in total —
i.e. after `stop()` is observed it finishes at most the three segments
(Play, Zoom, Skip) of the iteration in flight and then ceases. -/
theorem segs_after_stop_bound (fps D : ℚ) (running : ℕ → Bool)
    (hmono : ∀ i j : ℕ, i ≤ j → running i = false → running j = false)
    (m : ℕ) (hm : running m = false) :
    (jobRun fps D running).segs.length ≤ 3 * m := by
  have h := jobLoop_segs_length_bound fps D (totalFrames fps D) running
    hmono m hm (planFuel 60 D) 0 0 0
  simpa using h

/-- Witness for `segs_after_stop_bound`: with the flag cleared from the
start, no segment at all is realized. -/
theorem segs_after_stop_bound_witness :
    (∀ i j : ℕ, i ≤ j → (fun _ : ℕ => false) i = false →
      (fun _ : ℕ => false) j = false) ∧
    (fun _ : ℕ => false) 0 = false ∧
    (jobRun 24 100 (fun _ => false)).segs.length ≤ 3 * 0 :=
  ⟨fun _ _ _ h => h, rfl,
   segs_after_stop_bound 24 100 (fun _ => false) (fun _ _ _ h => h) 0 rfl⟩
